import Mathlib

/-!
The context pruner of kubectl-config-cleanup, `cmd/kubectl-config_cleanup/main.go`.

A shallow embedding of `main`, `run` and `k8sConfigContexts`.

* A Go `map[string]V` is a list of key/value entries.  The order of the list is
  the order in which a `range` over the map visits the entries; a Go map holds
  each key once, which is the predicate `GoMap.WF`.  The operations do not need
  `WF` to be defined, and the sweeps are shown to preserve it.
* `api.Config`, `api.Context`, `api.Cluster` and `api.AuthInfo` come from
  `k8s.io/client-go`; only the fields that `run` reads are given, the remaining
  payload is a type parameter.
* The loader, the interactive selector and the writer are collaborators of `run`
  and are parameters of its model.
-/

namespace KubectlConfigCleanup

/-! ## Go maps and slices -/

/-- A Go `map[string]V`: its entries, in the order a `range` visits them. -/
abbrev GoMap (V : Type) := List (String × V)

namespace GoMap

variable {V : Type}

/-- A Go map holds every key at most once. -/
def WF (m : GoMap V) : Prop := (m.map Prod.fst).Nodup

/-- The builtin `delete(m, key)`: the entry under `key` is dropped, a missing key
is a no-op. -/
def delete (m : GoMap V) (key : String) : GoMap V :=
  m.filter (fun e => e.1 != key)

/-- The keys of the map, `maps.Keys(m)`. -/
def Keys (m : GoMap V) : List String := m.map Prod.fst

/-- The function `maps.DeleteFunc(m, del)`: drops every entry on which `del` holds. -/
def DeleteFunc (m : GoMap V) (del : String → V → Bool) : GoMap V :=
  m.filter (fun e => !del e.1 e.2)

/-- The index expression `m[key]`, with `none` for a missing key. -/
def lookup (m : GoMap V) (key : String) : Option V :=
  (m.find? (fun e => e.1 == key)).map Prod.snd

end GoMap

/-- The function `slices.Contains(s, v)` on a slice of strings. -/
def slicesContains (s : List String) (v : String) : Bool := s.contains v

/-- The index expression `s[i]` of a slice with a Go `int` index; `none` is the
run-time panic of an index out of range. -/
def sliceIndex {α : Type} (s : List α) (i : Int) : Option α :=
  if i < 0 then none else s[i.toNat]?

/-! ## The configuration document -/

/-- Modelled from the spec: `api.Context` of `k8s.io/client-go`, which is not part
of the repository.  A context is a cluster reference, a credential reference and
further fields (`rest`) that the tool never reads. -/
structure Context (ε : Type) where
  Cluster : String
  AuthInfo : String
  rest : ε
deriving DecidableEq, Repr

/-- Modelled from the spec: `api.Config` of `k8s.io/client-go`, which is not part
of the repository.  The three mappings of the document; `κ` and `υ` are the
cluster and credential definitions, which the tool never inspects. -/
structure Config (κ υ ε : Type) where
  Clusters : GoMap κ
  AuthInfos : GoMap υ
  Contexts : GoMap (Context ε)
deriving DecidableEq, Repr

/-- The struct `NamedAPIContext`. -/
structure NamedAPIContext (ε : Type) where
  Name : String
  Context : Context ε
deriving DecidableEq, Repr

variable {κ υ ε : Type}

/-- The function `k8sConfigContexts`: one `NamedAPIContext` per entry of the map, in
the order the `range` visits them. -/
def k8sConfigContexts (ctxs : GoMap (Context ε)) : List (NamedAPIContext ε) :=
  ctxs.map (fun e => { Name := e.1, Context := e.2 })

/-! ## The pruner: `run`, from the selection loop to the last sweep -/

/-- The state of the selection loop: the context map and the two slices
`usersToDelete` and `clustersToDelete`. -/
structure LoopState (ε : Type) where
  Contexts : GoMap (Context ε)
  usersToDelete : List String
  clustersToDelete : List String
deriving DecidableEq, Repr

/-- The loop `for _, i := range idxs`: deletes the context under the selected name
and appends its two references.  `none` is the panic of `namedContexts[i]`. -/
def selectLoop (namedContexts : List (NamedAPIContext ε)) :
    List Int → LoopState ε → Option (LoopState ε)
  | [], st => some st
  | i :: rest, st =>
    match sliceIndex namedContexts i with
    | none => none
    | some ctx =>
      selectLoop namedContexts rest
        { Contexts := st.Contexts.delete ctx.Name
          usersToDelete := st.usersToDelete ++ [ctx.Context.AuthInfo]
          clustersToDelete := st.clustersToDelete ++ [ctx.Context.Cluster] }

/-- The loop `for _, cluster := range clustersToDelete { delete(cfg.Clusters, cluster) }`
(and the same shape for the stale names). -/
def deleteAll {V : Type} (m : GoMap V) (names : List String) : GoMap V :=
  names.foldl GoMap.delete m

/-- The three statements after the selection loop: the delete loop over
`clustersToDelete` and the two `maps.DeleteFunc` calls. -/
def removeSelected (cfg : Config κ υ ε) (st : LoopState ε) : Config κ υ ε :=
  { Contexts := st.Contexts
    Clusters :=
      (deleteAll cfg.Clusters st.clustersToDelete).DeleteFunc
        (fun key _ => slicesContains st.clustersToDelete key)
    AuthInfos :=
      cfg.AuthInfos.DeleteFunc (fun key _ => slicesContains st.usersToDelete key) }

/-- The block `if removeStaleClusters { ... }`. -/
def sweepStaleClusters (removeStaleClusters : Bool) (cfg : Config κ υ ε) : Config κ υ ε :=
  if removeStaleClusters then
    let allClusters := cfg.Clusters.Keys
    let referencedClusters := cfg.Contexts.map (fun e => e.2.Cluster)
    let staleClusters := allClusters.filter (fun cluster => !slicesContains referencedClusters cluster)
    { cfg with Clusters := deleteAll cfg.Clusters staleClusters }
  else cfg

/-- The block `if removeStaleUsers { ... }`. -/
def sweepStaleUsers (removeStaleUsers : Bool) (cfg : Config κ υ ε) : Config κ υ ε :=
  if removeStaleUsers then
    let allUsers := cfg.AuthInfos.Keys
    let referencedUsers := cfg.Contexts.map (fun e => e.2.AuthInfo)
    let staleUsers := allUsers.filter (fun user => !slicesContains referencedUsers user)
    { cfg with AuthInfos := deleteAll cfg.AuthInfos staleUsers }
  else cfg

/-- The pruning part of `run`: everything between the return of the selector and the
call of the writer.  `namedContexts` is computed from the loaded document as in
`run`; `none` is a panic of the selection loop. -/
def prune (cfg : Config κ υ ε) (idxs : List Int)
    (removeStaleClusters removeStaleUsers : Bool) : Option (Config κ υ ε) :=
  let namedContexts := k8sConfigContexts cfg.Contexts
  match selectLoop namedContexts idxs
      { Contexts := cfg.Contexts, usersToDelete := [], clustersToDelete := [] } with
  | none => none
  | some st =>
    some (sweepStaleUsers removeStaleUsers
      (sweepStaleClusters removeStaleClusters (removeSelected cfg st)))

/-- The contexts the index list selects, in the order of the indices. -/
def selected (cfg : Config κ υ ε) (idxs : List Int) : List (NamedAPIContext ε) :=
  idxs.filterMap (sliceIndex (k8sConfigContexts cfg.Contexts))

/-- Every index is a valid position of the context list shown to the selector. -/
def InRange (cfg : Config κ υ ε) (idxs : List Int) : Prop :=
  ∀ i ∈ idxs, 0 ≤ i ∧ i < ((k8sConfigContexts cfg.Contexts).length : Int)

instance (cfg : Config κ υ ε) (idxs : List Int) : Decidable (InRange cfg idxs) := by
  unfold InRange
  infer_instance

/-- The names of the selected contexts: the selection set. -/
def selectedNames (cfg : Config κ υ ε) (idxs : List Int) : List String :=
  (selected cfg idxs).map (fun ctx => ctx.Name)

/-- The cluster references of the selected contexts. -/
def selectedClusters (cfg : Config κ υ ε) (idxs : List Int) : List String :=
  (selected cfg idxs).map (fun ctx => ctx.Context.Cluster)

/-- The credential references of the selected contexts. -/
def selectedUsers (cfg : Config κ υ ε) (idxs : List Int) : List String :=
  (selected cfg idxs).map (fun ctx => ctx.Context.AuthInfo)

/-- The scenario of the specification: contexts `A` and `B` share `cluster1`. -/
def scenario : Config Unit Unit Unit :=
  { Contexts := [("A", ⟨"cluster1", "userA", ()⟩), ("B", ⟨"cluster1", "userB", ()⟩)]
    Clusters := [("cluster1", ())]
    AuthInfos := [("userA", ()), ("userB", ())] }

/-- The same scenario with the other visiting order of the context map. -/
def scenarioSwapped : Config Unit Unit Unit :=
  { Contexts := [("B", ⟨"cluster1", "userB", ()⟩), ("A", ⟨"cluster1", "userA", ()⟩)]
    Clusters := [("cluster1", ())]
    AuthInfos := [("userB", ()), ("userA", ())] }

/-- A document with an entry of each kind that no context references. -/
def withUnreferenced : Config Nat Nat Nat :=
  { Contexts := [("a", ⟨"c1", "u1", 7⟩), ("b", ⟨"c2", "u2", 8⟩), ("c", ⟨"c2", "u3", 9⟩)]
    Clusters := [("c1", 1), ("c2", 2), ("spare", 3)]
    AuthInfos := [("u1", 10), ("u2", 20), ("u3", 30), ("nobody", 40)] }

/-- A second input: `dev` and `prod` share both their cluster and their credential. -/
def sharedBoth : Config Unit Unit Unit :=
  { Contexts := [("dev", ⟨"shared", "alice", ()⟩), ("prod", ⟨"shared", "alice", ()⟩),
                 ("test", ⟨"other", "bob", ()⟩)]
    Clusters := [("shared", ()), ("other", ())]
    AuthInfos := [("alice", ()), ("bob", ())] }

/-! ## The whole of `run` -/

/-- A Go `error`; `isAbort` is the answer of `errors.Is(err, fuzzyfinder.ErrAbort)`. -/
structure GoError where
  msg : String
  isAbort : Bool
deriving DecidableEq, Repr

/-- What `run` gets from outside: the parsed flags and the three collaborators (the
loader `GetStartingConfig`, the selector `fuzzyfinder.FindMulti`, and the writer
`clientcmd.ModifyConfig`), each given by what it returns. -/
structure Collaborators (κ υ ε : Type) where
  help : Bool
  removeStaleUsers : Bool
  removeStaleClusters : Bool
  GetStartingConfig : Except GoError (Config κ υ ε)
  FindMulti : List (NamedAPIContext ε) → Except GoError (List Int)
  ModifyConfig : Config κ υ ε → Option GoError

/-- A call `run` makes to the outside. -/
inductive Call (κ υ ε : Type) where
  | usage
  | getStartingConfig
  | findMulti (namedContexts : List (NamedAPIContext ε))
  | modifyConfig (cfg : Config κ υ ε)
deriving DecidableEq, Repr

/-- How `run` ends: it returns an error value (`none` is `nil`), the process exits
through `os.Exit`, or the selection loop panics. -/
inductive Exit where
  | returned (err : Option GoError)
  | osExit (code : Int)
  | panicked
deriving DecidableEq, Repr

/-- The observable result of `run`: how it ended, the calls it made in order, and
the in-memory document when it ended (`none` when no document was loaded, or
after a panic). -/
structure Outcome (κ υ ε : Type) where
  exit : Exit
  calls : List (Call κ υ ε)
  document : Option (Config κ υ ε)

/-- The function `run`. -/
def run (w : Collaborators κ υ ε) : Outcome κ υ ε :=
  if w.help then
    { exit := .osExit 0, calls := [.usage], document := none }
  else
    match w.GetStartingConfig with
    | .error err =>
      { exit := .returned (some err), calls := [.getStartingConfig], document := none }
    | .ok cfg =>
      let namedContexts := k8sConfigContexts cfg.Contexts
      match w.FindMulti namedContexts with
      | .error err =>
        if err.isAbort then
          { exit := .returned none
            calls := [.getStartingConfig, .findMulti namedContexts]
            document := some cfg }
        else
          { exit := .returned (some
              { msg := "failed to fuzzy-search through kubeconfig: " ++ err.msg
                isAbort := false })
            calls := [.getStartingConfig, .findMulti namedContexts]
            document := some cfg }
      | .ok idxs =>
        match prune cfg idxs w.removeStaleClusters w.removeStaleUsers with
        | none =>
          { exit := .panicked
            calls := [.getStartingConfig, .findMulti namedContexts]
            document := none }
        | some pruned =>
          { exit := .returned (w.ModifyConfig pruned)
            calls := [.getStartingConfig, .findMulti namedContexts, .modifyConfig pruned]
            document := some pruned }

/-- Collaborators for the abort case: the scenario is loaded and the selector
reports an abort; the writer would succeed. -/
def abortingRun : Collaborators Unit Unit Unit :=
  { help := false
    removeStaleUsers := true
    removeStaleClusters := false
    GetStartingConfig := .ok scenario
    FindMulti := fun _ => .error { msg := "abort", isAbort := true }
    ModifyConfig := fun _ => none }

/-- The function `main`, as the exit status of the process: `log.Fatal` prints the
error and exits with status 1, a `nil` result falls off the end of `main` with
status 0, and an uncaught panic ends the process with status 2. -/
def main (w : Collaborators κ υ ε) : Int :=
  match (run w).exit with
  | .returned none => 0
  | .returned (some _) => 1
  | .osExit code => code
  | .panicked => 2

/-- Collaborators whose loader fails. -/
def loadFails : Collaborators Unit Unit Unit :=
  { help := false
    removeStaleUsers := true
    removeStaleClusters := true
    GetStartingConfig := .error { msg := "no such file", isAbort := false }
    FindMulti := fun _ => .ok [0]
    ModifyConfig := fun _ => none }

/-- Collaborators whose selector fails with an error that is not an abort. -/
def selectorFails : Collaborators Unit Unit Unit :=
  { help := false
    removeStaleUsers := true
    removeStaleClusters := true
    GetStartingConfig := .ok scenario
    FindMulti := fun _ => .error { msg := "no tty", isAbort := false }
    ModifyConfig := fun _ => none }

/-- Collaborators where the scenario is loaded, context `A` is selected and the
writer fails. -/
def writeFails : Collaborators Unit Unit Unit :=
  { help := false
    removeStaleUsers := true
    removeStaleClusters := true
    GetStartingConfig := .ok scenario
    FindMulti := fun _ => .ok [0]
    ModifyConfig := fun _ => some { msg := "read-only file system", isAbort := false } }

/-- A document with dangling references: `x` names a cluster and a credential that
the document does not define. -/
def dangling : Config Nat Nat Nat :=
  { Contexts := [("x", ⟨"ghost", "nobody", 1⟩), ("y", ⟨"c", "u", 2⟩), ("z", ⟨"gone", "u", 3⟩)]
    Clusters := [("c", 10)]
    AuthInfos := [("u", 20)] }

/-- The pruning part of `run` with the context list given from outside: the list
`namedContexts` that `k8sConfigContexts` built, in whatever order its `range`
visited the map. -/
def pruneFrom (namedContexts : List (NamedAPIContext ε)) (cfg : Config κ υ ε)
    (idxs : List Int) (removeStaleClusters removeStaleUsers : Bool) : Option (Config κ υ ε) :=
  match selectLoop namedContexts idxs
      { Contexts := cfg.Contexts, usersToDelete := [], clustersToDelete := [] } with
  | none => none
  | some st =>
    some (sweepStaleUsers removeStaleUsers
      (sweepStaleClusters removeStaleClusters (removeSelected cfg st)))

/-- The names a list of indices denotes in a given context list. -/
def namesAt (namedContexts : List (NamedAPIContext ε)) (idxs : List Int) : List String :=
  (idxs.filterMap (sliceIndex namedContexts)).map (fun ctx => ctx.Name)

/-- The context list of `withUnreferenced` in another visiting order: `c`, `a`, `b`. -/
def withUnreferencedRotated : List (NamedAPIContext Nat) :=
  [⟨"c", ⟨"c2", "u3", 9⟩⟩, ⟨"a", ⟨"c1", "u1", 7⟩⟩, ⟨"b", ⟨"c2", "u2", 8⟩⟩]

/-! ## The selection, read from the document -/

/-- The entries of the document's context map at the chosen positions: the
contexts of the document that the index list selects.  Read from `cfg.Contexts`
itself, not from the list that `k8sConfigContexts` builds. -/
def selection (cfg : Config κ υ ε) (idxs : List Int) : List (String × Context ε) :=
  idxs.filterMap (sliceIndex cfg.Contexts)

/-- The selection set `S`: the names of the document's contexts at the chosen
positions. -/
def selectionNames (cfg : Config κ υ ε) (idxs : List Int) : List String :=
  (selection cfg idxs).map (fun e => e.1)

/-- The cluster references of the document's contexts at the chosen positions. -/
def selectionClusters (cfg : Config κ υ ε) (idxs : List Int) : List String :=
  (selection cfg idxs).map (fun e => e.2.Cluster)

/-- The credential references of the document's contexts at the chosen positions. -/
def selectionUsers (cfg : Config κ υ ε) (idxs : List Int) : List String :=
  (selection cfg idxs).map (fun e => e.2.AuthInfo)

/-- Every index is a position of the document's context map. -/
def ValidSelection (cfg : Config κ υ ε) (idxs : List Int) : Prop :=
  ∀ i ∈ idxs, 0 ≤ i ∧ i < (cfg.Contexts.length : Int)

instance (cfg : Config κ υ ε) (idxs : List Int) : Decidable (ValidSelection cfg idxs) := by
  unfold ValidSelection
  infer_instance

/-- An index list for a given list of context names: each name is sent to the
position of its entry in the document's context map. -/
def indicesOf (cfg : Config κ υ ε) (names : List String) : List Int :=
  names.map (fun name => ((cfg.Contexts.Keys.indexOf name : Nat) : Int))

/-! ## Auxiliary facts about maps and the loops -/

theorem slicesContains_iff (s : List String) (v : String) :
    slicesContains s v = true ↔ v ∈ s := by
  simp [slicesContains]

theorem deleteAll_eq_filter {V : Type} (names : List String) (m : GoMap V) :
    deleteAll m names = m.filter (fun e => !slicesContains names e.1) := by
  induction names generalizing m with
  | nil => simp [deleteAll, slicesContains]
  | cons n ns ih =>
    have step : deleteAll m (n :: ns) = deleteAll (m.delete n) ns := rfl
    rw [step, ih, GoMap.delete, List.filter_filter]
    apply List.filter_congr
    intro e _
    by_cases hn : e.1 = n <;> simp [slicesContains, hn]

theorem mem_keys_filter {V : Type} (m : GoMap V) (p : String → Bool) (k : String) :
    k ∈ GoMap.Keys (m.filter (fun e => p e.1)) ↔ k ∈ GoMap.Keys m ∧ p k = true := by
  simp only [GoMap.Keys, List.mem_map, List.mem_filter]
  constructor
  · rintro ⟨e, ⟨he, hp⟩, rfl⟩
    exact ⟨⟨e, he, rfl⟩, hp⟩
  · rintro ⟨⟨e, he, rfl⟩, hp⟩
    exact ⟨e, ⟨he, hp⟩, rfl⟩

theorem lookup_filter {V : Type} (m : GoMap V) (p : String → Bool) (k : String) :
    GoMap.lookup (m.filter (fun e => p e.1)) k = if p k then GoMap.lookup m k else none := by
  induction m with
  | nil => simp [GoMap.lookup]
  | cons e m ih =>
    simp only [GoMap.lookup] at ih ⊢
    by_cases hk : e.1 = k
    · subst hk
      by_cases hp : p e.1 = true
      · simp [List.filter_cons, hp]
      · have hp2 : p e.1 = false := by simpa using hp
        simp only [List.filter_cons, hp2]
        simpa [hp2] using ih
    · have hk2 : (e.1 == k) = false := by simpa using hk
      by_cases hp : p e.1 = true
      · simp only [List.filter_cons, hp, if_true, List.find?_cons, hk2]
        exact ih
      · have hp2 : p e.1 = false := by simpa using hp
        simp only [List.filter_cons, hp2, List.find?_cons, hk2]
        simpa using ih

theorem wf_filter {V : Type} (m : GoMap V) (p : String × V → Bool) (h : GoMap.WF m) :
    GoMap.WF (m.filter p) :=
  List.Nodup.sublist ((List.filter_sublist m).map Prod.fst) h

theorem sliceIndex_of_inRange {α : Type} (s : List α) (i : Int)
    (h : 0 ≤ i ∧ i < (s.length : Int)) : ∃ a, sliceIndex s i = some a := by
  have hlt : i.toNat < s.length := by omega
  refine ⟨s[i.toNat], ?_⟩
  simp [sliceIndex, not_lt.mpr h.1, List.getElem?_eq_getElem hlt]

theorem selectLoop_eq (namedContexts : List (NamedAPIContext ε)) (idxs : List Int)
    (st : LoopState ε)
    (h : ∀ i ∈ idxs, 0 ≤ i ∧ i < (namedContexts.length : Int)) :
    selectLoop namedContexts idxs st = some
      { Contexts := st.Contexts.filter (fun e =>
          !slicesContains ((idxs.filterMap (sliceIndex namedContexts)).map
            (fun ctx => ctx.Name)) e.1)
        usersToDelete := st.usersToDelete ++
          (idxs.filterMap (sliceIndex namedContexts)).map (fun ctx => ctx.Context.AuthInfo)
        clustersToDelete := st.clustersToDelete ++
          (idxs.filterMap (sliceIndex namedContexts)).map (fun ctx => ctx.Context.Cluster) } := by
  induction idxs generalizing st with
  | nil => simp [selectLoop, slicesContains]
  | cons i rest ih =>
    obtain ⟨ctx, hctx⟩ := sliceIndex_of_inRange namedContexts i (h i (List.mem_cons_self _ _))
    have hrest : ∀ j ∈ rest, 0 ≤ j ∧ j < (namedContexts.length : Int) :=
      fun j hj => h j (List.mem_cons_of_mem _ hj)
    simp only [selectLoop, hctx, List.filterMap_cons]
    rw [ih _ hrest]
    simp only [GoMap.delete, List.filter_filter, List.map_cons, List.append_assoc,
      List.singleton_append, Option.some.injEq, LoopState.mk.injEq, and_true]
    apply List.filter_congr
    intro e _
    have hb : (e.1 != ctx.Name) = !(e.1 == ctx.Name) := rfl
    rw [hb, Bool.and_comm]
    simp [slicesContains]

theorem selected_names_mem_keys (cfg : Config κ υ ε) (idxs : List Int) (name : String)
    (h : name ∈ selectedNames cfg idxs) : name ∈ cfg.Contexts.Keys := by
  simp only [selectedNames, selected, List.mem_map, List.mem_filterMap] at h
  obtain ⟨ctx, ⟨i, _, hi⟩, rfl⟩ := h
  have hmem : ctx ∈ k8sConfigContexts cfg.Contexts := by
    unfold sliceIndex at hi
    split at hi
    · cases hi
    · exact List.getElem?_mem hi
  simp only [k8sConfigContexts, List.mem_map] at hmem
  obtain ⟨e, he, rfl⟩ := hmem
  exact List.mem_map.mpr ⟨e, he, rfl⟩

/-- Deleting the stale keys of a map keeps exactly the referenced entries. -/
theorem deleteAll_stale {V : Type} (m : GoMap V) (referenced : List String) :
    deleteAll m (m.Keys.filter (fun k => !slicesContains referenced k)) =
      m.filter (fun e => slicesContains referenced e.1) := by
  rw [deleteAll_eq_filter]
  apply List.filter_congr
  intro e he
  have hk : e.1 ∈ GoMap.Keys m := List.mem_map.mpr ⟨e, he, rfl⟩
  by_cases hr : e.1 ∈ referenced <;> simp [slicesContains, hr, hk]

theorem sweepStaleClusters_eq (c : Bool) (x : Config κ υ ε) :
    sweepStaleClusters c x =
      { x with Clusters := x.Clusters.filter (fun e =>
          !c || slicesContains (x.Contexts.map (fun y => y.2.Cluster)) e.1) } := by
  cases c
  · simp [sweepStaleClusters]
  · simp only [sweepStaleClusters, if_true, deleteAll_stale, Bool.not_true, Bool.false_or]

theorem sweepStaleUsers_eq (u : Bool) (x : Config κ υ ε) :
    sweepStaleUsers u x =
      { x with AuthInfos := x.AuthInfos.filter (fun e =>
          !u || slicesContains (x.Contexts.map (fun y => y.2.AuthInfo)) e.1) } := by
  cases u
  · simp [sweepStaleUsers]
  · simp only [sweepStaleUsers, if_true, deleteAll_stale, Bool.not_true, Bool.false_or]

/-- The three mappings of the pruned document, each as a filter of the mapping of
the loaded document. -/
theorem prune_eq (cfg : Config κ υ ε) (idxs : List Int) (c u : Bool)
    (h : InRange cfg idxs) :
    ∃ r, prune cfg idxs c u = some r ∧
      r.Contexts = cfg.Contexts.filter (fun e => !slicesContains (selectedNames cfg idxs) e.1) ∧
      r.Clusters = cfg.Clusters.filter (fun e =>
        !slicesContains (selectedClusters cfg idxs) e.1 &&
          (!c || slicesContains (r.Contexts.map (fun x => x.2.Cluster)) e.1)) ∧
      r.AuthInfos = cfg.AuthInfos.filter (fun e =>
        !slicesContains (selectedUsers cfg idxs) e.1 &&
          (!u || slicesContains (r.Contexts.map (fun x => x.2.AuthInfo)) e.1)) := by
  have hloop := selectLoop_eq (k8sConfigContexts cfg.Contexts) idxs
    { Contexts := cfg.Contexts, usersToDelete := [], clustersToDelete := [] } h
  have hp : prune cfg idxs c u = some (sweepStaleUsers u (sweepStaleClusters c
      (removeSelected cfg
        { Contexts := cfg.Contexts.filter
            (fun e => !slicesContains (selectedNames cfg idxs) e.1)
          usersToDelete := selectedUsers cfg idxs
          clustersToDelete := selectedClusters cfg idxs }))) := by
    simp only [prune, hloop, List.nil_append]
    rfl
  refine ⟨_, hp, ?_, ?_, ?_⟩
  · simp only [sweepStaleUsers_eq, sweepStaleClusters_eq, removeSelected]
  · simp only [sweepStaleUsers_eq, sweepStaleClusters_eq, removeSelected, deleteAll_eq_filter,
      GoMap.DeleteFunc, List.filter_filter]
    apply List.filter_congr
    intro e _
    cases c <;> cases slicesContains (selectedClusters cfg idxs) e.1 <;> simp
  · simp only [sweepStaleUsers_eq, sweepStaleClusters_eq, removeSelected,
      GoMap.DeleteFunc, List.filter_filter]
    apply List.filter_congr
    intro e _
    cases u <;> cases slicesContains (selectedUsers cfg idxs) e.1 <;> simp

/-- Pruning keeps the three mappings well formed: no key appears twice. -/
theorem prune_wf (cfg : Config κ υ ε) (idxs : List Int) (c u : Bool)
    (h : InRange cfg idxs) (hctx : cfg.Contexts.WF) (hcl : cfg.Clusters.WF)
    (hus : cfg.AuthInfos.WF) :
    ∃ r, prune cfg idxs c u = some r ∧ r.Contexts.WF ∧ r.Clusters.WF ∧ r.AuthInfos.WF := by
  obtain ⟨r, hr, e1, e2, e3⟩ := prune_eq cfg idxs c u h
  refine ⟨r, hr, ?_, ?_, ?_⟩
  · rw [e1]
    exact wf_filter _ _ hctx
  · rw [e2]
    exact wf_filter _ _ hcl
  · rw [e3]
    exact wf_filter _ _ hus

/-! ## The selection of the code is the selection of the document -/

theorem sliceIndex_map {α β : Type} (f : α → β) (s : List α) (i : Int) :
    sliceIndex (s.map f) i = (sliceIndex s i).map f := by
  unfold sliceIndex
  split
  · rfl
  · exact List.getElem?_map f s i.toNat

theorem selected_eq_selection (cfg : Config κ υ ε) (idxs : List Int) :
    selected cfg idxs =
      (selection cfg idxs).map (fun e => { Name := e.1, Context := e.2 }) := by
  unfold selected selection k8sConfigContexts
  rw [List.map_filterMap]
  congr 1
  funext i
  exact sliceIndex_map _ _ i

theorem selectedNames_eq (cfg : Config κ υ ε) (idxs : List Int) :
    selectedNames cfg idxs = selectionNames cfg idxs := by
  simp [selectedNames, selectionNames, selected_eq_selection, List.map_map, Function.comp_def]

theorem selectedClusters_eq (cfg : Config κ υ ε) (idxs : List Int) :
    selectedClusters cfg idxs = selectionClusters cfg idxs := by
  simp [selectedClusters, selectionClusters, selected_eq_selection, List.map_map,
    Function.comp_def]

theorem selectedUsers_eq (cfg : Config κ υ ε) (idxs : List Int) :
    selectedUsers cfg idxs = selectionUsers cfg idxs := by
  simp [selectedUsers, selectionUsers, selected_eq_selection, List.map_map,
    Function.comp_def]

theorem inRange_of_valid (cfg : Config κ υ ε) (idxs : List Int)
    (h : ValidSelection cfg idxs) : InRange cfg idxs := by
  intro i hi
  have hlen : (k8sConfigContexts cfg.Contexts).length = cfg.Contexts.length := by
    simp [k8sConfigContexts]
  rw [hlen]
  exact h i hi

theorem selection_mem (cfg : Config κ υ ε) (idxs : List Int) (e : String × Context ε)
    (he : e ∈ selection cfg idxs) : e ∈ cfg.Contexts := by
  obtain ⟨i, -, hi⟩ := List.mem_filterMap.mp he
  unfold sliceIndex at hi
  split at hi
  · cases hi
  · exact List.getElem?_mem hi

/-- The three mappings of the pruned document, in terms of the selection read from
the document. -/
theorem prune_eq_selection (cfg : Config κ υ ε) (idxs : List Int) (c u : Bool)
    (h : ValidSelection cfg idxs) :
    ∃ r, prune cfg idxs c u = some r ∧
      r.Contexts = cfg.Contexts.filter (fun e => !slicesContains (selectionNames cfg idxs) e.1) ∧
      r.Clusters = cfg.Clusters.filter (fun e =>
        !slicesContains (selectionClusters cfg idxs) e.1 &&
          (!c || slicesContains (r.Contexts.map (fun x => x.2.Cluster)) e.1)) ∧
      r.AuthInfos = cfg.AuthInfos.filter (fun e =>
        !slicesContains (selectionUsers cfg idxs) e.1 &&
          (!u || slicesContains (r.Contexts.map (fun x => x.2.AuthInfo)) e.1)) := by
  have hre := prune_eq cfg idxs c u (inRange_of_valid cfg idxs h)
  rw [selectedNames_eq, selectedClusters_eq, selectedUsers_eq] at hre
  exact hre

theorem sliceIndex_indexOf {V : Type} (m : GoMap V) (name : String) (h : name ∈ m.Keys) :
    ∃ e, sliceIndex m ((m.Keys.indexOf name : Nat) : Int) = some e ∧ e.1 = name := by
  have hk : m.Keys[m.Keys.indexOf name]? = some name := List.getElem?_indexOf h
  rw [GoMap.Keys, List.getElem?_map] at hk
  cases hm : m[List.indexOf name (List.map Prod.fst m)]? with
  | none => simp [hm] at hk
  | some e =>
    refine ⟨e, ?_, ?_⟩
    · simp [sliceIndex, GoMap.Keys, hm]
    · simpa [hm] using hk

theorem indicesOf_valid (cfg : Config κ υ ε) (names : List String)
    (h : ∀ name ∈ names, name ∈ cfg.Contexts.Keys) :
    ValidSelection cfg (indicesOf cfg names) := by
  intro i hi
  obtain ⟨name, hname, rfl⟩ := List.mem_map.mp hi
  have hlt : cfg.Contexts.Keys.indexOf name < cfg.Contexts.Keys.length :=
    List.indexOf_lt_length.mpr (h name hname)
  have hlen : cfg.Contexts.Keys.length = cfg.Contexts.length := by simp [GoMap.Keys]
  omega

theorem indicesOf_names (cfg : Config κ υ ε) (names : List String)
    (h : ∀ name ∈ names, name ∈ cfg.Contexts.Keys) :
    selectionNames cfg (indicesOf cfg names) = names := by
  induction names with
  | nil => rfl
  | cons name rest ih =>
    obtain ⟨e, he, hname⟩ := sliceIndex_indexOf cfg.Contexts name (h name (List.mem_cons_self _ _))
    have hrest := ih (fun n hn => h n (List.mem_cons_of_mem _ hn))
    simp only [selectionNames, selection, indicesOf, List.map_cons, List.filterMap_cons, he]
      at hrest ⊢
    rw [hrest, hname]

/-! ## The context mapping after pruning -/

/-- C1: for every document and every flag setting: (1) the names `S` of the
document's contexts at the indices of a valid selection are keys of `contexts(D)`;
(2) pruning returns a document whose context names are exactly the context names
of the loaded document minus `S`; (3) every list `S` of names with
`S ⊆ keys(contexts(D))` is the selection of an index list, and pruning with it
returns a document whose context names are exactly the loaded names minus `S`. -/
theorem C1_contexts_minus_selection (cfg : Config κ υ ε) (idxs : List Int) (c u : Bool)
    (h : ValidSelection cfg idxs) :
    (∀ name ∈ selectionNames cfg idxs, name ∈ cfg.Contexts.Keys) ∧
    (∃ r, prune cfg idxs c u = some r ∧
      ∀ name, name ∈ r.Contexts.Keys ↔
        (name ∈ cfg.Contexts.Keys ∧ name ∉ selectionNames cfg idxs)) ∧
    (∀ S : List String, (∀ name ∈ S, name ∈ cfg.Contexts.Keys) →
      ValidSelection cfg (indicesOf cfg S) ∧ selectionNames cfg (indicesOf cfg S) = S ∧
      ∃ r, prune cfg (indicesOf cfg S) c u = some r ∧
        ∀ name, name ∈ r.Contexts.Keys ↔ (name ∈ cfg.Contexts.Keys ∧ name ∉ S)) := by
  have key : ∀ js, ValidSelection cfg js →
      ∃ r, prune cfg js c u = some r ∧
        ∀ name, name ∈ r.Contexts.Keys ↔
          (name ∈ cfg.Contexts.Keys ∧ name ∉ selectionNames cfg js) := by
    intro js hjs
    obtain ⟨r, hr, hctx, -, -⟩ := prune_eq_selection cfg js c u hjs
    refine ⟨r, hr, fun name => ?_⟩
    rw [hctx, mem_keys_filter cfg.Contexts (fun k => !slicesContains (selectionNames cfg js) k)]
    simp [slicesContains]
  refine ⟨?_, key idxs h, ?_⟩
  · intro name hname
    obtain ⟨e, he, rfl⟩ := List.mem_map.mp hname
    exact List.mem_map.mpr ⟨e, selection_mem cfg idxs e he, rfl⟩
  · intro S hS
    have hv := indicesOf_valid cfg S hS
    have hn := indicesOf_names cfg S hS
    obtain ⟨r, hr, hkeys⟩ := key (indicesOf cfg S) hv
    rw [hn] at hkeys
    exact ⟨hv, hn, r, hr, hkeys⟩

/-- C1 at `withUnreferenced` with the contexts `c` and `a` selected. -/
theorem C1_contexts_minus_selection_witness :
    ValidSelection withUnreferenced [2, 0] ∧
      ((∀ name ∈ selectionNames withUnreferenced [2, 0],
          name ∈ withUnreferenced.Contexts.Keys) ∧
      (∃ r, prune withUnreferenced [2, 0] false true = some r ∧
        ∀ name, name ∈ r.Contexts.Keys ↔
          (name ∈ withUnreferenced.Contexts.Keys ∧
            name ∉ selectionNames withUnreferenced [2, 0])) ∧
      (∀ S : List String, (∀ name ∈ S, name ∈ withUnreferenced.Contexts.Keys) →
        ValidSelection withUnreferenced (indicesOf withUnreferenced S) ∧
        selectionNames withUnreferenced (indicesOf withUnreferenced S) = S ∧
        ∃ r, prune withUnreferenced (indicesOf withUnreferenced S) false true = some r ∧
          ∀ name, name ∈ r.Contexts.Keys ↔
            (name ∈ withUnreferenced.Contexts.Keys ∧ name ∉ S))) :=
  ⟨by decide, C1_contexts_minus_selection withUnreferenced [2, 0] false true (by decide)⟩

/-! ## Direct removal of the references of the selected contexts -/

/-- C2: for every document, valid selection and flag setting, every selected context
is a context of the document, its cluster reference is absent from the clusters of
the result and its credential reference is absent from the credentials of the
result; nothing is assumed about the unselected contexts, which may reference the
same names. -/
theorem C2_selected_references_absent (cfg : Config κ υ ε) (idxs : List Int) (c u : Bool)
    (h : ValidSelection cfg idxs) :
    ∃ r, prune cfg idxs c u = some r ∧
      ∀ e ∈ selection cfg idxs,
        e ∈ cfg.Contexts ∧ e.2.Cluster ∉ r.Clusters.Keys ∧ e.2.AuthInfo ∉ r.AuthInfos.Keys := by
  obtain ⟨r, hr, -, hcl, hus⟩ := prune_eq_selection cfg idxs c u h
  refine ⟨r, hr, fun e he => ⟨selection_mem cfg idxs e he, ?_, ?_⟩⟩
  · rw [hcl, mem_keys_filter cfg.Clusters (fun k =>
      !slicesContains (selectionClusters cfg idxs) k &&
        (!c || slicesContains (r.Contexts.map (fun x => x.2.Cluster)) k))]
    have hmem : e.2.Cluster ∈ selectionClusters cfg idxs :=
      List.mem_map.mpr ⟨e, he, rfl⟩
    simp [slicesContains, hmem]
  · rw [hus, mem_keys_filter cfg.AuthInfos (fun k =>
      !slicesContains (selectionUsers cfg idxs) k &&
        (!u || slicesContains (r.Contexts.map (fun x => x.2.AuthInfo)) k))]
    have hmem : e.2.AuthInfo ∈ selectionUsers cfg idxs :=
      List.mem_map.mpr ⟨e, he, rfl⟩
    simp [slicesContains, hmem]

/-- C2 at the scenario with `A` selected: `cluster1` goes although `B` uses it. -/
theorem C2_selected_references_absent_witness :
    ValidSelection scenario [0] ∧
      ∃ r, prune scenario [0] false false = some r ∧
        ∀ e ∈ selection scenario [0],
          e ∈ scenario.Contexts ∧ e.2.Cluster ∉ r.Clusters.Keys ∧
            e.2.AuthInfo ∉ r.AuthInfos.Keys :=
  ⟨by decide, C2_selected_references_absent scenario [0] false false (by decide)⟩

/-! ## Referenced entries and the stale sweeps -/

/-- C3, as stated, fails: in `sharedBoth` the selected context `dev` and the
remaining context `prod` reference the same cluster `shared` and the same
credential `alice`.  With both flags true both names are removed although `prod`
remains and references them. -/
theorem C3_counterexample :
    ∃ r, prune sharedBoth [0] true true = some r ∧
      r = { Contexts := [("prod", ⟨"shared", "alice", ()⟩), ("test", ⟨"other", "bob", ()⟩)]
            Clusters := [("other", ())]
            AuthInfos := [("bob", ())] } ∧
      ("shared" ∈ sharedBoth.Clusters.Keys ∧
        (∃ e ∈ r.Contexts, e.2.Cluster = "shared") ∧ "shared" ∉ r.Clusters.Keys) ∧
      ("alice" ∈ sharedBoth.AuthInfos.Keys ∧
        (∃ e ∈ r.Contexts, e.2.AuthInfo = "alice") ∧ "alice" ∉ r.AuthInfos.Keys) := by
  refine ⟨_, rfl, ?_, ?_, ?_⟩ <;> decide

/-- C3, amended: with both flags true, every cluster name of the loaded document
that is referenced by a remaining context and by no selected context is still a
cluster of the result, and every credential name of the loaded document that is
referenced by a remaining context and by no selected context is still a
credential of the result. -/
theorem C3_referenced_and_unselected_kept (cfg : Config κ υ ε) (idxs : List Int)
    (h : InRange cfg idxs) :
    ∃ r, prune cfg idxs true true = some r ∧
      (∀ k ∈ cfg.Clusters.Keys, (∃ e ∈ r.Contexts, e.2.Cluster = k) →
        k ∉ selectedClusters cfg idxs → k ∈ r.Clusters.Keys) ∧
      (∀ k ∈ cfg.AuthInfos.Keys, (∃ e ∈ r.Contexts, e.2.AuthInfo = k) →
        k ∉ selectedUsers cfg idxs → k ∈ r.AuthInfos.Keys) := by
  obtain ⟨r, hr, -, hcl, hus⟩ := prune_eq cfg idxs true true h
  refine ⟨r, hr, ?_, ?_⟩
  · intro k hk href hsel
    rw [hcl, mem_keys_filter cfg.Clusters (fun k =>
      !slicesContains (selectedClusters cfg idxs) k &&
        (!true || slicesContains (r.Contexts.map (fun x => x.2.Cluster)) k))]
    obtain ⟨e, he, rfl⟩ := href
    have hmem : e.2.Cluster ∈ r.Contexts.map (fun x => x.2.Cluster) :=
      List.mem_map.mpr ⟨e, he, rfl⟩
    refine ⟨hk, ?_⟩
    simp only [slicesContains] at *
    simp [hsel, hmem]
  · intro k hk href hsel
    rw [hus, mem_keys_filter cfg.AuthInfos (fun k =>
      !slicesContains (selectedUsers cfg idxs) k &&
        (!true || slicesContains (r.Contexts.map (fun x => x.2.AuthInfo)) k))]
    obtain ⟨e, he, rfl⟩ := href
    have hmem : e.2.AuthInfo ∈ r.Contexts.map (fun x => x.2.AuthInfo) :=
      List.mem_map.mpr ⟨e, he, rfl⟩
    refine ⟨hk, ?_⟩
    simp only [slicesContains] at *
    simp [hsel, hmem]

/-- C3, amended, at `withUnreferenced` with the context `a` selected. -/
theorem C3_referenced_and_unselected_kept_witness :
    InRange withUnreferenced [0] ∧
      ∃ r, prune withUnreferenced [0] true true = some r ∧
        (∀ k ∈ withUnreferenced.Clusters.Keys, (∃ e ∈ r.Contexts, e.2.Cluster = k) →
          k ∉ selectedClusters withUnreferenced [0] → k ∈ r.Clusters.Keys) ∧
        (∀ k ∈ withUnreferenced.AuthInfos.Keys, (∃ e ∈ r.Contexts, e.2.AuthInfo = k) →
          k ∉ selectedUsers withUnreferenced [0] → k ∈ r.AuthInfos.Keys) :=
  ⟨by decide, C3_referenced_and_unselected_kept withUnreferenced [0] (by decide)⟩

/-- C4, as stated, fails: pruning the scenario with `A` selected and both flags
true does not give a document with contexts `B`, clusters `cluster1` and
credentials `userB`, in either visiting order of the context map. -/
theorem C4_counterexample :
    (¬ ∃ r, prune scenario [0] true true = some r ∧ r.Contexts.Keys = ["B"] ∧
        r.Clusters.Keys = ["cluster1"] ∧ r.AuthInfos.Keys = ["userB"]) ∧
    (¬ ∃ r, prune scenarioSwapped [1] true true = some r ∧ r.Contexts.Keys = ["B"] ∧
        r.Clusters.Keys = ["cluster1"] ∧ r.AuthInfos.Keys = ["userB"]) := by
  constructor
  · rintro ⟨r, hr, -, hc, -⟩
    have hrun : prune scenario [0] true true =
        some { Contexts := [("B", ⟨"cluster1", "userB", ()⟩)], Clusters := [],
               AuthInfos := [("userB", ())] } := by decide
    rw [hrun] at hr
    cases hr
    simp [GoMap.Keys] at hc
  · rintro ⟨r, hr, -, hc, -⟩
    have hrun : prune scenarioSwapped [1] true true =
        some { Contexts := [("B", ⟨"cluster1", "userB", ()⟩)], Clusters := [],
               AuthInfos := [("userB", ())] } := by decide
    rw [hrun] at hr
    cases hr
    simp [GoMap.Keys] at hc

/-- C4, amended: pruning the scenario with `A` selected and both flags true yields
contexts `B`, no cluster at all (`cluster1` is the cluster of the selected `A`)
and credentials `userB`, in either visiting order of the context map. -/
theorem C4_scenario_result :
    prune scenario [0] true true =
      some { Contexts := [("B", ⟨"cluster1", "userB", ()⟩)], Clusters := [],
             AuthInfos := [("userB", ())] } ∧
    prune scenarioSwapped [1] true true =
      some { Contexts := [("B", ⟨"cluster1", "userB", ()⟩)], Clusters := [],
             AuthInfos := [("userB", ())] } := by
  constructor <;> decide

/-- C5: with both flags true, every cluster name of the result is the cluster
reference of a context of the result and every credential name of the result is
the credential reference of a context of the result. -/
theorem C5_no_stale_entry_survives (cfg : Config κ υ ε) (idxs : List Int)
    (h : InRange cfg idxs) :
    ∃ r, prune cfg idxs true true = some r ∧
      (∀ k ∈ r.Clusters.Keys, ∃ e ∈ r.Contexts, e.2.Cluster = k) ∧
      (∀ k ∈ r.AuthInfos.Keys, ∃ e ∈ r.Contexts, e.2.AuthInfo = k) := by
  obtain ⟨r, hr, -, hcl, hus⟩ := prune_eq cfg idxs true true h
  refine ⟨r, hr, ?_, ?_⟩
  · intro k hk
    rw [hcl, mem_keys_filter cfg.Clusters (fun k =>
      !slicesContains (selectedClusters cfg idxs) k &&
        (!true || slicesContains (r.Contexts.map (fun x => x.2.Cluster)) k))] at hk
    have href : k ∈ r.Contexts.map (fun x => x.2.Cluster) := by
      have hkeep := hk.2
      simp only [Bool.and_eq_true, Bool.not_true, Bool.false_or, slicesContains_iff] at hkeep
      exact hkeep.2
    obtain ⟨e, he, hek⟩ := List.mem_map.mp href
    exact ⟨e, he, hek⟩
  · intro k hk
    rw [hus, mem_keys_filter cfg.AuthInfos (fun k =>
      !slicesContains (selectedUsers cfg idxs) k &&
        (!true || slicesContains (r.Contexts.map (fun x => x.2.AuthInfo)) k))] at hk
    have href : k ∈ r.Contexts.map (fun x => x.2.AuthInfo) := by
      have hkeep := hk.2
      simp only [Bool.and_eq_true, Bool.not_true, Bool.false_or, slicesContains_iff] at hkeep
      exact hkeep.2
    obtain ⟨e, he, hek⟩ := List.mem_map.mp href
    exact ⟨e, he, hek⟩

/-- C5 at `withUnreferenced` with the context `b` selected. -/
theorem C5_no_stale_entry_survives_witness :
    InRange withUnreferenced [1] ∧
      ∃ r, prune withUnreferenced [1] true true = some r ∧
        (∀ k ∈ r.Clusters.Keys, ∃ e ∈ r.Contexts, e.2.Cluster = k) ∧
        (∀ k ∈ r.AuthInfos.Keys, ∃ e ∈ r.Contexts, e.2.AuthInfo = k) :=
  ⟨by decide, C5_no_stale_entry_survives withUnreferenced [1] (by decide)⟩

/-- C6: with both flags false, the cluster names of the result are exactly the
cluster names of the loaded document minus the cluster references of the
document's selected contexts, and the credential names of the result are exactly
the credential names of the loaded document minus the credential references of
the document's selected contexts; so an entry that no context referenced is
kept. -/
theorem C6_flags_off_exact (cfg : Config κ υ ε) (idxs : List Int)
    (h : ValidSelection cfg idxs) :
    ∃ r, prune cfg idxs false false = some r ∧
      (∀ k, k ∈ r.Clusters.Keys ↔
        (k ∈ cfg.Clusters.Keys ∧ k ∉ selectionClusters cfg idxs)) ∧
      (∀ k, k ∈ r.AuthInfos.Keys ↔
        (k ∈ cfg.AuthInfos.Keys ∧ k ∉ selectionUsers cfg idxs)) ∧
      (∀ k, k ∈ cfg.Clusters.Keys → (∀ e ∈ cfg.Contexts, e.2.Cluster ≠ k) →
        k ∈ r.Clusters.Keys) ∧
      (∀ k, k ∈ cfg.AuthInfos.Keys → (∀ e ∈ cfg.Contexts, e.2.AuthInfo ≠ k) →
        k ∈ r.AuthInfos.Keys) := by
  obtain ⟨r, hr, -, hcl, hus⟩ := prune_eq_selection cfg idxs false false h
  have hc : ∀ k, k ∈ r.Clusters.Keys ↔
      (k ∈ cfg.Clusters.Keys ∧ k ∉ selectionClusters cfg idxs) := by
    intro k
    rw [hcl, mem_keys_filter cfg.Clusters (fun k =>
      !slicesContains (selectionClusters cfg idxs) k &&
        (!false || slicesContains (r.Contexts.map (fun x => x.2.Cluster)) k))]
    simp [slicesContains]
  have hu : ∀ k, k ∈ r.AuthInfos.Keys ↔
      (k ∈ cfg.AuthInfos.Keys ∧ k ∉ selectionUsers cfg idxs) := by
    intro k
    rw [hus, mem_keys_filter cfg.AuthInfos (fun k =>
      !slicesContains (selectionUsers cfg idxs) k &&
        (!false || slicesContains (r.Contexts.map (fun x => x.2.AuthInfo)) k))]
    simp [slicesContains]
  refine ⟨r, hr, hc, hu, ?_, ?_⟩
  · intro k hk hunref
    refine (hc k).mpr ⟨hk, fun hsel => ?_⟩
    obtain ⟨e, he, hek⟩ := List.mem_map.mp hsel
    exact hunref e (selection_mem cfg idxs e he) hek
  · intro k hk hunref
    refine (hu k).mpr ⟨hk, fun hsel => ?_⟩
    obtain ⟨e, he, hek⟩ := List.mem_map.mp hsel
    exact hunref e (selection_mem cfg idxs e he) hek

/-- C6 at `withUnreferenced` with the context `b` selected twice. -/
theorem C6_flags_off_exact_witness :
    ValidSelection withUnreferenced [1, 1] ∧
      ∃ r, prune withUnreferenced [1, 1] false false = some r ∧
        (∀ k, k ∈ r.Clusters.Keys ↔
          (k ∈ withUnreferenced.Clusters.Keys ∧ k ∉ selectionClusters withUnreferenced [1, 1])) ∧
        (∀ k, k ∈ r.AuthInfos.Keys ↔
          (k ∈ withUnreferenced.AuthInfos.Keys ∧ k ∉ selectionUsers withUnreferenced [1, 1])) ∧
        (∀ k, k ∈ withUnreferenced.Clusters.Keys →
          (∀ e ∈ withUnreferenced.Contexts, e.2.Cluster ≠ k) → k ∈ r.Clusters.Keys) ∧
        (∀ k, k ∈ withUnreferenced.AuthInfos.Keys →
          (∀ e ∈ withUnreferenced.Contexts, e.2.AuthInfo ≠ k) → k ∈ r.AuthInfos.Keys) :=
  ⟨by decide, C6_flags_off_exact withUnreferenced [1, 1] (by decide)⟩

/-! ## Idempotence, abort, independence of the flags, frame -/

theorem inRange_nil (cfg : Config κ υ ε) : InRange cfg [] := by
  intro i hi
  cases hi

theorem sweeps_commute (c u : Bool) (x : Config κ υ ε) :
    sweepStaleUsers u (sweepStaleClusters c x) = sweepStaleClusters c (sweepStaleUsers u x) := by
  simp only [sweepStaleUsers_eq, sweepStaleClusters_eq]

/-- C7: for every document, selection and flag setting (all four combinations of
the two flags), pruning returns a document, and pruning that document again with
the same flags and the empty selection returns it unchanged. -/
theorem C7_idempotent (cfg : Config κ υ ε) (idxs : List Int) (c u : Bool)
    (h : InRange cfg idxs) :
    ∃ r, prune cfg idxs c u = some r ∧ prune r [] c u = some r := by
  obtain ⟨r, hr, -, hcl, hus⟩ := prune_eq cfg idxs c u h
  obtain ⟨r2, hr2, hctx2, hcl2, hus2⟩ := prune_eq r [] c u (inRange_nil r)
  have e1 : r2.Contexts = r.Contexts := by
    rw [hctx2]
    simp [selectedNames, selected, slicesContains]
  have e2 : r2.Clusters = r.Clusters := by
    rw [hcl2, e1]
    apply List.filter_eq_self.mpr
    intro e he
    rw [hcl] at he
    have hkeep := (List.mem_filter.mp he).2
    simp only [Bool.and_eq_true] at hkeep
    have hsel : slicesContains (selectedClusters r []) e.1 = false := rfl
    rw [hsel, hkeep.2]
    rfl
  have e3 : r2.AuthInfos = r.AuthInfos := by
    rw [hus2, e1]
    apply List.filter_eq_self.mpr
    intro e he
    rw [hus] at he
    have hkeep := (List.mem_filter.mp he).2
    simp only [Bool.and_eq_true] at hkeep
    have hsel : slicesContains (selectedUsers r []) e.1 = false := rfl
    rw [hsel, hkeep.2]
    rfl
  have e : r2 = r := by
    cases r2
    cases r
    simp only [Config.mk.injEq]
    exact ⟨e2, e3, e1⟩
  exact ⟨r, hr, by rw [hr2, e]⟩

/-- C7 at `withUnreferenced` with the contexts `a` and `c` selected. -/
theorem C7_idempotent_witness :
    InRange withUnreferenced [0, 2] ∧
      ∃ r, prune withUnreferenced [0, 2] true false = some r ∧ prune r [] true false = some r :=
  ⟨by decide, C7_idempotent withUnreferenced [0, 2] true false (by decide)⟩

/-- C8: when the help flag is off, a document is loaded and the selector fails with
an error for which `errors.Is(err, fuzzyfinder.ErrAbort)` holds, then `run` returns
`nil`, the in-memory document is the loaded one, and the calls of `run` contain no
call of the writer; this for every loaded document and both stale flags. -/
theorem C8_abort_is_clean (w : Collaborators κ υ ε) (cfg : Config κ υ ε) (err : GoError)
    (hhelp : w.help = false)
    (hload : w.GetStartingConfig = .ok cfg)
    (hsel : w.FindMulti (k8sConfigContexts cfg.Contexts) = .error err)
    (habort : err.isAbort = true) :
    (run w).exit = .returned none ∧
      (run w).document = some cfg ∧
      (run w).calls = [.getStartingConfig, .findMulti (k8sConfigContexts cfg.Contexts)] ∧
      ∀ written, Call.modifyConfig written ∉ (run w).calls := by
  have hrun : run w =
      { exit := .returned none
        calls := [.getStartingConfig, .findMulti (k8sConfigContexts cfg.Contexts)]
        document := some cfg } := by
    simp [run, hhelp, hload, hsel, habort]
  rw [hrun]
  refine ⟨rfl, rfl, rfl, ?_⟩
  intro written hmem
  simp at hmem

/-- C8 at `abortingRun`: the scenario is loaded and the selection is aborted. -/
theorem C8_abort_is_clean_witness :
    (abortingRun.help = false ∧
      abortingRun.GetStartingConfig = .ok scenario ∧
      abortingRun.FindMulti (k8sConfigContexts scenario.Contexts) =
        .error { msg := "abort", isAbort := true } ∧
      ({ msg := "abort", isAbort := true } : GoError).isAbort = true) ∧
    ((run abortingRun).exit = .returned none ∧
      (run abortingRun).document = some scenario ∧
      (run abortingRun).calls =
        [.getStartingConfig, .findMulti (k8sConfigContexts scenario.Contexts)] ∧
      ∀ written, Call.modifyConfig written ∉ (run abortingRun).calls) :=
  ⟨⟨rfl, rfl, rfl, rfl⟩,
    C8_abort_is_clean abortingRun scenario { msg := "abort", isAbort := true } rfl rfl rfl rfl⟩

/-- C9: for every document, selection and flag setting, the pruned document is the
same whether the stale-cluster sweep runs before the stale-credential sweep (as
in the code) or after it; the clusters of the result are the same for both values
of `removeStaleUsers`, and the credentials of the result are the same for both
values of `removeStaleClusters`. -/
theorem C9_flags_independent (cfg : Config κ υ ε) (idxs : List Int) (c u : Bool)
    (h : InRange cfg idxs) :
    ∃ st r,
      selectLoop (k8sConfigContexts cfg.Contexts) idxs
        { Contexts := cfg.Contexts, usersToDelete := [], clustersToDelete := [] } = some st ∧
      prune cfg idxs c u = some r ∧
      r = sweepStaleUsers u (sweepStaleClusters c (removeSelected cfg st)) ∧
      r = sweepStaleClusters c (sweepStaleUsers u (removeSelected cfg st)) ∧
      (∀ u2, ∃ r2, prune cfg idxs c u2 = some r2 ∧ r2.Clusters = r.Clusters) ∧
      (∀ c2, ∃ r2, prune cfg idxs c2 u = some r2 ∧ r2.AuthInfos = r.AuthInfos) := by
  obtain ⟨st, hst⟩ : ∃ st, selectLoop (k8sConfigContexts cfg.Contexts) idxs
      { Contexts := cfg.Contexts, usersToDelete := [], clustersToDelete := [] } = some st :=
    ⟨_, selectLoop_eq (k8sConfigContexts cfg.Contexts) idxs
      { Contexts := cfg.Contexts, usersToDelete := [], clustersToDelete := [] } h⟩
  have hp : ∀ c1 u1, prune cfg idxs c1 u1 = some (sweepStaleUsers u1 (sweepStaleClusters c1
      (removeSelected cfg st))) := by
    intro c1 u1
    simp only [prune, hst]
  refine ⟨st, _, hst, hp c u, rfl, sweeps_commute c u _, ?_, ?_⟩
  · intro u2
    exact ⟨_, hp c u2, by simp only [sweepStaleUsers_eq, sweepStaleClusters_eq]⟩
  · intro c2
    exact ⟨_, hp c2 u, by simp only [sweepStaleUsers_eq, sweepStaleClusters_eq]⟩

/-- C9 at `sharedBoth` with the context `test` selected. -/
theorem C9_flags_independent_witness :
    InRange sharedBoth [2] ∧
      ∃ st r,
        selectLoop (k8sConfigContexts sharedBoth.Contexts) [2]
          { Contexts := sharedBoth.Contexts, usersToDelete := [], clustersToDelete := [] }
            = some st ∧
        prune sharedBoth [2] true false = some r ∧
        r = sweepStaleUsers false (sweepStaleClusters true (removeSelected sharedBoth st)) ∧
        r = sweepStaleClusters true (sweepStaleUsers false (removeSelected sharedBoth st)) ∧
        (∀ u2, ∃ r2, prune sharedBoth [2] true u2 = some r2 ∧ r2.Clusters = r.Clusters) ∧
        (∀ c2, ∃ r2, prune sharedBoth [2] c2 false = some r2 ∧ r2.AuthInfos = r.AuthInfos) :=
  ⟨by decide, C9_flags_independent sharedBoth [2] true false (by decide)⟩

/-- C10: for every document, selection and flag setting, every name that the
result maps to a value, in contexts, clusters or credentials, is mapped to the same
value by the loaded document; each mapping of the result is a sublist of the
entries of the loaded one, so nothing is added or changed. -/
theorem C10_only_deletes (cfg : Config κ υ ε) (idxs : List Int) (c u : Bool)
    (h : InRange cfg idxs) :
    ∃ r, prune cfg idxs c u = some r ∧
      (∀ k v, r.Contexts.lookup k = some v → cfg.Contexts.lookup k = some v) ∧
      (∀ k v, r.Clusters.lookup k = some v → cfg.Clusters.lookup k = some v) ∧
      (∀ k v, r.AuthInfos.lookup k = some v → cfg.AuthInfos.lookup k = some v) ∧
      r.Contexts.Sublist cfg.Contexts ∧ r.Clusters.Sublist cfg.Clusters ∧
      r.AuthInfos.Sublist cfg.AuthInfos := by
  obtain ⟨r, hr, hctx, hcl, hus⟩ := prune_eq cfg idxs c u h
  refine ⟨r, hr, ?_, ?_, ?_, ?_, ?_, ?_⟩
  · intro k v hv
    rw [hctx, lookup_filter cfg.Contexts
      (fun k => !slicesContains (selectedNames cfg idxs) k)] at hv
    split at hv
    · exact hv
    · cases hv
  · intro k v hv
    rw [hcl, lookup_filter cfg.Clusters (fun k =>
      !slicesContains (selectedClusters cfg idxs) k &&
        (!c || slicesContains (r.Contexts.map (fun x => x.2.Cluster)) k))] at hv
    split at hv
    · exact hv
    · cases hv
  · intro k v hv
    rw [hus, lookup_filter cfg.AuthInfos (fun k =>
      !slicesContains (selectedUsers cfg idxs) k &&
        (!u || slicesContains (r.Contexts.map (fun x => x.2.AuthInfo)) k))] at hv
    split at hv
    · exact hv
    · cases hv
  · rw [hctx]
    exact List.filter_sublist _
  · rw [hcl]
    exact List.filter_sublist _
  · rw [hus]
    exact List.filter_sublist _

/-- C10 at `withUnreferenced` with the context `b` selected. -/
theorem C10_only_deletes_witness :
    InRange withUnreferenced [1] ∧
      ∃ r, prune withUnreferenced [1] true true = some r ∧
        (∀ k v, r.Contexts.lookup k = some v → withUnreferenced.Contexts.lookup k = some v) ∧
        (∀ k v, r.Clusters.lookup k = some v → withUnreferenced.Clusters.lookup k = some v) ∧
        (∀ k v, r.AuthInfos.lookup k = some v → withUnreferenced.AuthInfos.lookup k = some v) ∧
        r.Contexts.Sublist withUnreferenced.Contexts ∧
        r.Clusters.Sublist withUnreferenced.Clusters ∧
        r.AuthInfos.Sublist withUnreferenced.AuthInfos :=
  ⟨by decide, C10_only_deletes withUnreferenced [1] true true (by decide)⟩

/-! ## Failures of the collaborators -/

/-- C11: with the help flag off, (1) when the loader fails, `run` returns the
loader's error and its only call is the loader (no selector, no writer); (2) when
the selector fails with an error that is not an abort, `run` returns a non-nil
error and makes no call of the writer; (3) when the loader succeeds and the
selector returns indices of the context list, `run` calls the writer once on the
pruned document and returns exactly what the writer returns.  In the two failure
cases the process exits with status 1, and in the third with status 0 exactly
when the write succeeds. -/
theorem C11_failures_terminal (w : Collaborators κ υ ε) (hhelp : w.help = false) :
    (∀ err, w.GetStartingConfig = .error err →
      (run w).exit = .returned (some err) ∧
        (run w).calls = [.getStartingConfig] ∧ main w = 1) ∧
    (∀ cfg err, w.GetStartingConfig = .ok cfg →
      w.FindMulti (k8sConfigContexts cfg.Contexts) = .error err → err.isAbort = false →
      (∃ e, (run w).exit = .returned (some e)) ∧
        (∀ written, Call.modifyConfig written ∉ (run w).calls) ∧ main w = 1) ∧
    (∀ cfg idxs, w.GetStartingConfig = .ok cfg →
      w.FindMulti (k8sConfigContexts cfg.Contexts) = .ok idxs → InRange cfg idxs →
      ∃ pruned, prune cfg idxs w.removeStaleClusters w.removeStaleUsers = some pruned ∧
        (run w).exit = .returned (w.ModifyConfig pruned) ∧
        (run w).calls = [.getStartingConfig, .findMulti (k8sConfigContexts cfg.Contexts),
          .modifyConfig pruned] ∧
        (main w = 0 ↔ w.ModifyConfig pruned = none)) := by
  refine ⟨?_, ?_, ?_⟩
  · intro err hload
    have hrun : run w =
        { exit := .returned (some err), calls := [.getStartingConfig], document := none } := by
      simp [run, hhelp, hload]
    simp [main, hrun]
  · intro cfg err hload hsel habort
    have hrun : run w =
        { exit := .returned (some
            { msg := "failed to fuzzy-search through kubeconfig: " ++ err.msg
              isAbort := false })
          calls := [.getStartingConfig, .findMulti (k8sConfigContexts cfg.Contexts)]
          document := some cfg } := by
      simp [run, hhelp, hload, hsel, habort]
    refine ⟨⟨_, by rw [hrun]⟩, ?_, by simp [main, hrun]⟩
    intro written hmem
    rw [hrun] at hmem
    simp at hmem
  · intro cfg idxs hload hsel hrange
    obtain ⟨pruned, hp, -⟩ := prune_eq cfg idxs w.removeStaleClusters w.removeStaleUsers hrange
    have hrun : run w =
        { exit := .returned (w.ModifyConfig pruned)
          calls := [.getStartingConfig, .findMulti (k8sConfigContexts cfg.Contexts),
            .modifyConfig pruned]
          document := some pruned } := by
      simp [run, hhelp, hload, hsel, hp]
    refine ⟨pruned, hp, by rw [hrun], by rw [hrun], ?_⟩
    simp only [main, hrun]
    cases w.ModifyConfig pruned <;> simp

/-- C11 at `loadFails`, `selectorFails` and `writeFails`, one for each case. -/
theorem C11_failures_terminal_witness :
    (loadFails.help = false ∧
      loadFails.GetStartingConfig = .error { msg := "no such file", isAbort := false } ∧
      ((run loadFails).exit = .returned (some { msg := "no such file", isAbort := false }) ∧
        (run loadFails).calls = [.getStartingConfig] ∧ main loadFails = 1)) ∧
    (selectorFails.help = false ∧
      selectorFails.GetStartingConfig = .ok scenario ∧
      selectorFails.FindMulti (k8sConfigContexts scenario.Contexts) =
        .error { msg := "no tty", isAbort := false } ∧
      ((∃ e, (run selectorFails).exit = .returned (some e)) ∧
        (∀ written, Call.modifyConfig written ∉ (run selectorFails).calls) ∧
        main selectorFails = 1)) ∧
    (writeFails.help = false ∧
      writeFails.GetStartingConfig = .ok scenario ∧
      writeFails.FindMulti (k8sConfigContexts scenario.Contexts) = .ok [0] ∧
      InRange scenario [0] ∧
      ∃ pruned, prune scenario [0] writeFails.removeStaleClusters
          writeFails.removeStaleUsers = some pruned ∧
        (run writeFails).exit = .returned (writeFails.ModifyConfig pruned) ∧
        (run writeFails).calls =
          [.getStartingConfig, .findMulti (k8sConfigContexts scenario.Contexts),
            .modifyConfig pruned] ∧
        (main writeFails = 0 ↔ writeFails.ModifyConfig pruned = none)) :=
  ⟨⟨rfl, rfl, (C11_failures_terminal loadFails rfl).1 _ rfl⟩,
    ⟨rfl, rfl, rfl, (C11_failures_terminal selectorFails rfl).2.1 _ _ rfl rfl rfl⟩,
    ⟨rfl, rfl, rfl, by decide, (C11_failures_terminal writeFails rfl).2.2 _ _ rfl rfl (by decide)⟩⟩

/-! ## Dangling references, the full characterisation, reference integrity -/

theorem delete_absent {V : Type} (m : GoMap V) (key : String) (h : key ∉ m.Keys) :
    m.delete key = m := by
  apply List.filter_eq_self.mpr
  intro e he
  have hne : e.1 ≠ key := fun heq => h (heq ▸ List.mem_map.mpr ⟨e, he, rfl⟩)
  simpa using hne

/-- C12: for every document, with no assumption on where its references point, every
index list in range of the context list and every flag setting, each index lookup
of the selection loop succeeds and pruning returns a document; every unselected
context of the loaded document, whether or not its references dangle, is a context
of the result; and `delete` of a key that a map does not hold leaves the map
unchanged. -/
theorem C12_no_error_path {V : Type} (cfg : Config κ υ ε) (idxs : List Int) (c u : Bool)
    (m : GoMap V) (key : String) (h : InRange cfg idxs) :
    (∀ i ∈ idxs, ∃ ctx, sliceIndex (k8sConfigContexts cfg.Contexts) i = some ctx) ∧
    (∃ r, prune cfg idxs c u = some r ∧
      ∀ e ∈ cfg.Contexts, e.1 ∉ selectedNames cfg idxs → e ∈ r.Contexts) ∧
    (key ∉ m.Keys → m.delete key = m) := by
  refine ⟨fun i hi => sliceIndex_of_inRange _ i (h i hi), ?_, delete_absent m key⟩
  obtain ⟨r, hr, hctx, -, -⟩ := prune_eq cfg idxs c u h
  refine ⟨r, hr, fun e he hsel => ?_⟩
  rw [hctx]
  apply List.mem_filter.mpr
  refine ⟨he, ?_⟩
  simpa [slicesContains] using hsel

/-- C12 at `dangling` with `y` selected: `x` and `z` dangle and stay; the map in
the last part is the cluster map, which has no key `ghost`. -/
theorem C12_no_error_path_witness :
    InRange dangling [1] ∧
      ((∀ i ∈ [(1 : Int)], ∃ ctx, sliceIndex (k8sConfigContexts dangling.Contexts) i = some ctx) ∧
      (∃ r, prune dangling [1] true true = some r ∧
        ∀ e ∈ dangling.Contexts, e.1 ∉ selectedNames dangling [1] → e ∈ r.Contexts) ∧
      ("ghost" ∉ dangling.Clusters.Keys → dangling.Clusters.delete "ghost" = dangling.Clusters)) :=
  ⟨by decide, C12_no_error_path dangling [1] true true dangling.Clusters "ghost" (by decide)⟩

/-- C13: for every document, valid selection and flag setting, a name is a cluster
of the result exactly when it is a cluster of the loaded document, it is not the
cluster reference of a selected context of the document, and either
`removeStaleClusters` is false or it is the cluster reference of an unselected
context of the loaded document; and the same for credentials with
`removeStaleUsers`. -/
theorem C13_full_characterisation (cfg : Config κ υ ε) (idxs : List Int) (c u : Bool)
    (h : ValidSelection cfg idxs) :
    ∃ r, prune cfg idxs c u = some r ∧
      (∀ k, k ∈ r.Clusters.Keys ↔
        (k ∈ cfg.Clusters.Keys ∧ k ∉ selectionClusters cfg idxs ∧
          (c = false ∨ ∃ e ∈ cfg.Contexts, e.1 ∉ selectionNames cfg idxs ∧ e.2.Cluster = k))) ∧
      (∀ k, k ∈ r.AuthInfos.Keys ↔
        (k ∈ cfg.AuthInfos.Keys ∧ k ∉ selectionUsers cfg idxs ∧
          (u = false ∨ ∃ e ∈ cfg.Contexts, e.1 ∉ selectionNames cfg idxs ∧ e.2.AuthInfo = k))) := by
  obtain ⟨r, hr, hctx, hcl, hus⟩ := prune_eq_selection cfg idxs c u h
  refine ⟨r, hr, fun k => ?_, fun k => ?_⟩
  · rw [hcl, mem_keys_filter cfg.Clusters (fun k =>
      !slicesContains (selectionClusters cfg idxs) k &&
        (!c || slicesContains (r.Contexts.map (fun x => x.2.Cluster)) k)), hctx]
    cases c <;> simp [slicesContains, and_assoc]
  · rw [hus, mem_keys_filter cfg.AuthInfos (fun k =>
      !slicesContains (selectionUsers cfg idxs) k &&
        (!u || slicesContains (r.Contexts.map (fun x => x.2.AuthInfo)) k)), hctx]
    cases u <;> simp [slicesContains, and_assoc]

/-- C13 at `withUnreferenced` with `b` selected, clusters swept and credentials not. -/
theorem C13_full_characterisation_witness :
    ValidSelection withUnreferenced [1] ∧
      ∃ r, prune withUnreferenced [1] true false = some r ∧
        (∀ k, k ∈ r.Clusters.Keys ↔
          (k ∈ withUnreferenced.Clusters.Keys ∧ k ∉ selectionClusters withUnreferenced [1] ∧
            ((true : Bool) = false ∨ ∃ e ∈ withUnreferenced.Contexts,
              e.1 ∉ selectionNames withUnreferenced [1] ∧ e.2.Cluster = k))) ∧
        (∀ k, k ∈ r.AuthInfos.Keys ↔
          (k ∈ withUnreferenced.AuthInfos.Keys ∧ k ∉ selectionUsers withUnreferenced [1] ∧
            ((false : Bool) = false ∨ ∃ e ∈ withUnreferenced.Contexts,
              e.1 ∉ selectionNames withUnreferenced [1] ∧ e.2.AuthInfo = k))) :=
  ⟨by decide, C13_full_characterisation withUnreferenced [1] true false (by decide)⟩

/-- C14: if every context of the loaded document references a cluster and a
credential that the document defines, and no unselected context has the cluster
reference or the credential reference of a selected context, then for every flag
setting every context of the result references a cluster and a credential that
the result defines. -/
theorem C14_integrity_preserved (cfg : Config κ υ ε) (idxs : List Int) (c u : Bool)
    (h : InRange cfg idxs)
    (hdef : ∀ e ∈ cfg.Contexts,
      e.2.Cluster ∈ cfg.Clusters.Keys ∧ e.2.AuthInfo ∈ cfg.AuthInfos.Keys)
    (hshare : ∀ e ∈ cfg.Contexts, e.1 ∉ selectedNames cfg idxs →
      e.2.Cluster ∉ selectedClusters cfg idxs ∧ e.2.AuthInfo ∉ selectedUsers cfg idxs) :
    ∃ r, prune cfg idxs c u = some r ∧
      ∀ e ∈ r.Contexts, e.2.Cluster ∈ r.Clusters.Keys ∧ e.2.AuthInfo ∈ r.AuthInfos.Keys := by
  obtain ⟨r, hr, hctx, hcl, hus⟩ := prune_eq cfg idxs c u h
  refine ⟨r, hr, fun e he => ?_⟩
  have he2 := he
  rw [hctx] at he2
  obtain ⟨hecfg, hkeep⟩ := List.mem_filter.mp he2
  have hunsel : e.1 ∉ selectedNames cfg idxs := by
    simpa [slicesContains] using hkeep
  have hcref : slicesContains (r.Contexts.map (fun x => x.2.Cluster)) e.2.Cluster = true :=
    (slicesContains_iff _ _).mpr (List.mem_map.mpr ⟨e, he, rfl⟩)
  have huref : slicesContains (r.Contexts.map (fun x => x.2.AuthInfo)) e.2.AuthInfo = true :=
    (slicesContains_iff _ _).mpr (List.mem_map.mpr ⟨e, he, rfl⟩)
  have hcsel : slicesContains (selectedClusters cfg idxs) e.2.Cluster = false := by
    have := (hshare e hecfg hunsel).1
    simpa [slicesContains] using this
  have husel : slicesContains (selectedUsers cfg idxs) e.2.AuthInfo = false := by
    have := (hshare e hecfg hunsel).2
    simpa [slicesContains] using this
  constructor
  · rw [hcl, mem_keys_filter cfg.Clusters (fun k =>
      !slicesContains (selectedClusters cfg idxs) k &&
        (!c || slicesContains (r.Contexts.map (fun x => x.2.Cluster)) k))]
    refine ⟨(hdef e hecfg).1, ?_⟩
    simp only [hcsel, hcref]
    simp
  · rw [hus, mem_keys_filter cfg.AuthInfos (fun k =>
      !slicesContains (selectedUsers cfg idxs) k &&
        (!u || slicesContains (r.Contexts.map (fun x => x.2.AuthInfo)) k))]
    refine ⟨(hdef e hecfg).2, ?_⟩
    simp only [husel, huref]
    simp

/-- C14 at `withUnreferenced` with `a` selected: no other context uses `c1` or `u1`. -/
theorem C14_integrity_preserved_witness :
    (InRange withUnreferenced [0] ∧
      (∀ e ∈ withUnreferenced.Contexts,
        e.2.Cluster ∈ withUnreferenced.Clusters.Keys ∧
          e.2.AuthInfo ∈ withUnreferenced.AuthInfos.Keys) ∧
      (∀ e ∈ withUnreferenced.Contexts, e.1 ∉ selectedNames withUnreferenced [0] →
        e.2.Cluster ∉ selectedClusters withUnreferenced [0] ∧
          e.2.AuthInfo ∉ selectedUsers withUnreferenced [0])) ∧
    ∃ r, prune withUnreferenced [0] true true = some r ∧
      ∀ e ∈ r.Contexts, e.2.Cluster ∈ r.Clusters.Keys ∧ e.2.AuthInfo ∈ r.AuthInfos.Keys :=
  ⟨⟨by decide, by decide, by decide⟩,
    C14_integrity_preserved withUnreferenced [0] true true (by decide) (by decide) (by decide)⟩

/-! ## The result depends only on the set of selected names -/

theorem sliceIndex_mem {α : Type} (s : List α) (i : Int) (a : α)
    (h : sliceIndex s i = some a) : a ∈ s := by
  unfold sliceIndex at h
  split at h
  · cases h
  · exact List.getElem?_mem h

theorem k8sConfigContexts_names (ctxs : GoMap (Context ε)) :
    (k8sConfigContexts ctxs).map (fun x => x.Name) = ctxs.Keys := by
  simp [k8sConfigContexts, GoMap.Keys, List.map_map, Function.comp_def]

theorem lookup_of_mem {V : Type} (m : GoMap V) (hwf : m.WF) (e : String × V) (he : e ∈ m) :
    m.lookup e.1 = some e.2 := by
  induction m with
  | nil => cases he
  | cons a m ih =>
    have hnd : a.1 ∉ m.map Prod.fst ∧ (m.map Prod.fst).Nodup := by
      simpa [GoMap.WF] using hwf
    rcases List.mem_cons.mp he with heq | hmem
    · subst heq
      simp [GoMap.lookup]
    · have hne : a.1 ≠ e.1 := fun heq => hnd.1 (heq ▸ List.mem_map.mpr ⟨e, hmem, rfl⟩)
      have hb : (a.1 == e.1) = false := by simpa using hne
      have hrec := ih hnd.2 hmem
      simp only [GoMap.lookup, List.find?_cons, hb] at hrec ⊢
      exact hrec

/-- The three mappings of the pruned document when the context list is given. -/
theorem pruneFrom_eq (named : List (NamedAPIContext ε)) (cfg : Config κ υ ε)
    (idxs : List Int) (c u : Bool)
    (h : ∀ i ∈ idxs, 0 ≤ i ∧ i < (named.length : Int)) :
    ∃ r, pruneFrom named cfg idxs c u = some r ∧
      r.Contexts = cfg.Contexts.filter (fun e => !slicesContains (namesAt named idxs) e.1) ∧
      r.Clusters = cfg.Clusters.filter (fun e =>
        !slicesContains ((idxs.filterMap (sliceIndex named)).map
            (fun ctx => ctx.Context.Cluster)) e.1 &&
          (!c || slicesContains (r.Contexts.map (fun x => x.2.Cluster)) e.1)) ∧
      r.AuthInfos = cfg.AuthInfos.filter (fun e =>
        !slicesContains ((idxs.filterMap (sliceIndex named)).map
            (fun ctx => ctx.Context.AuthInfo)) e.1 &&
          (!u || slicesContains (r.Contexts.map (fun x => x.2.AuthInfo)) e.1)) := by
  have hloop := selectLoop_eq named idxs
    { Contexts := cfg.Contexts, usersToDelete := [], clustersToDelete := [] } h
  have hp : pruneFrom named cfg idxs c u = some (sweepStaleUsers u (sweepStaleClusters c
      (removeSelected cfg
        { Contexts := cfg.Contexts.filter (fun e => !slicesContains (namesAt named idxs) e.1)
          usersToDelete := (idxs.filterMap (sliceIndex named)).map
            (fun ctx => ctx.Context.AuthInfo)
          clustersToDelete := (idxs.filterMap (sliceIndex named)).map
            (fun ctx => ctx.Context.Cluster) }))) := by
    simp only [pruneFrom, hloop, List.nil_append]
    rfl
  refine ⟨_, hp, ?_, ?_, ?_⟩
  · simp only [sweepStaleUsers_eq, sweepStaleClusters_eq, removeSelected]
  · simp only [sweepStaleUsers_eq, sweepStaleClusters_eq, removeSelected, deleteAll_eq_filter,
      GoMap.DeleteFunc, List.filter_filter]
    apply List.filter_congr
    intro e _
    cases c <;> cases slicesContains ((idxs.filterMap (sliceIndex named)).map
      (fun ctx => ctx.Context.Cluster)) e.1 <;> simp
  · simp only [sweepStaleUsers_eq, sweepStaleClusters_eq, removeSelected,
      GoMap.DeleteFunc, List.filter_filter]
    apply List.filter_congr
    intro e _
    cases u <;> cases slicesContains ((idxs.filterMap (sliceIndex named)).map
      (fun ctx => ctx.Context.AuthInfo)) e.1 <;> simp

/-- With unique keys, a selection whose names are among the names of a second
selection picks only contexts that the second selection also picks. -/
theorem selection_subset (cfg : Config κ υ ε) (named1 named2 : List (NamedAPIContext ε))
    (idxs1 idxs2 : List Int) (hwf : cfg.Contexts.WF)
    (hp1 : named1.Perm (k8sConfigContexts cfg.Contexts))
    (hp2 : named2.Perm (k8sConfigContexts cfg.Contexts))
    (hsub : ∀ name, name ∈ namesAt named1 idxs1 → name ∈ namesAt named2 idxs2)
    (x : NamedAPIContext ε) (hx : x ∈ idxs1.filterMap (sliceIndex named1)) :
    x ∈ idxs2.filterMap (sliceIndex named2) := by
  have hnd : ((k8sConfigContexts cfg.Contexts).map (fun x => x.Name)).Nodup := by
    rw [k8sConfigContexts_names]
    exact hwf
  obtain ⟨i, -, hi⟩ := List.mem_filterMap.mp hx
  have hx1 : x ∈ k8sConfigContexts cfg.Contexts := hp1.mem_iff.mp (sliceIndex_mem _ _ _ hi)
  have hname : x.Name ∈ namesAt named2 idxs2 := hsub _ (List.mem_map.mpr ⟨x, hx, rfl⟩)
  obtain ⟨y, hy, hyx⟩ := List.mem_map.mp hname
  obtain ⟨j, -, hj⟩ := List.mem_filterMap.mp hy
  have hy1 : y ∈ k8sConfigContexts cfg.Contexts := hp2.mem_iff.mp (sliceIndex_mem _ _ _ hj)
  have hxy : y = x := List.inj_on_of_nodup_map hnd hy1 hx1 hyx
  exact hxy ▸ hy

theorem slicesContains_map_congr {α : Type} (l1 l2 : List α) (f : α → String)
    (h : ∀ x, x ∈ l1 ↔ x ∈ l2) (k : String) :
    slicesContains (l1.map f) k = slicesContains (l2.map f) k := by
  rw [Bool.eq_iff_iff, slicesContains_iff, slicesContains_iff]
  simp only [List.mem_map]
  constructor
  · rintro ⟨x, hx, rfl⟩
    exact ⟨x, (h x).mp hx, rfl⟩
  · rintro ⟨x, hx, rfl⟩
    exact ⟨x, (h x).mpr hx, rfl⟩

/-- C15: for a context map with unique keys, `k8sConfigContexts` lists the keys of
the map, each exactly once and each with the value the map holds for it; and for
every document with such a context map, every flag setting, any two orderings of
its context list and any two index lists in range (in any order, with or without
repetitions) that denote the same set of names, pruning returns the same document
for both.  The pruner of `run` is the case of the ordering that `k8sConfigContexts`
gives. -/
theorem C15_depends_on_name_set (cfg : Config κ υ ε)
    (named1 named2 : List (NamedAPIContext ε)) (idxs1 idxs2 : List Int) (c u : Bool)
    (hwf : cfg.Contexts.WF)
    (hp1 : named1.Perm (k8sConfigContexts cfg.Contexts))
    (hp2 : named2.Perm (k8sConfigContexts cfg.Contexts))
    (h1 : InRange cfg idxs1) (h2 : InRange cfg idxs2)
    (hsame : ∀ name, name ∈ namesAt named1 idxs1 ↔ name ∈ namesAt named2 idxs2) :
    ((k8sConfigContexts cfg.Contexts).map (fun x => x.Name) = cfg.Contexts.Keys ∧
      (∀ k ∈ cfg.Contexts.Keys,
        ((k8sConfigContexts cfg.Contexts).map (fun x => x.Name)).count k = 1) ∧
      (∀ x ∈ k8sConfigContexts cfg.Contexts, cfg.Contexts.lookup x.Name = some x.Context)) ∧
    prune cfg idxs1 c u = pruneFrom (k8sConfigContexts cfg.Contexts) cfg idxs1 c u ∧
    ∃ r, pruneFrom named1 cfg idxs1 c u = some r ∧ pruneFrom named2 cfg idxs2 c u = some r := by
  refine ⟨⟨k8sConfigContexts_names _, ?_, ?_⟩, rfl, ?_⟩
  · intro k hk
    rw [k8sConfigContexts_names]
    exact List.count_eq_one_of_mem hwf hk
  · intro x hx
    obtain ⟨e, he, rfl⟩ := List.mem_map.mp hx
    exact lookup_of_mem cfg.Contexts hwf e he
  · have hr1 : ∀ i ∈ idxs1, 0 ≤ i ∧ i < (named1.length : Int) := by
      intro i hi
      rw [hp1.length_eq]
      exact h1 i hi
    have hr2 : ∀ i ∈ idxs2, 0 ≤ i ∧ i < (named2.length : Int) := by
      intro i hi
      rw [hp2.length_eq]
      exact h2 i hi
    obtain ⟨r1, hrun1, hctx1, hcl1, hus1⟩ := pruneFrom_eq named1 cfg idxs1 c u hr1
    obtain ⟨r2, hrun2, hctx2, hcl2, hus2⟩ := pruneFrom_eq named2 cfg idxs2 c u hr2
    have hsel : ∀ x, x ∈ idxs1.filterMap (sliceIndex named1) ↔
        x ∈ idxs2.filterMap (sliceIndex named2) := fun x =>
      ⟨selection_subset cfg named1 named2 idxs1 idxs2 hwf hp1 hp2 (fun n => (hsame n).mp) x,
        selection_subset cfg named2 named1 idxs2 idxs1 hwf hp2 hp1 (fun n => (hsame n).mpr) x⟩
    have e1 : r1.Contexts = r2.Contexts := by
      rw [hctx1, hctx2]
      apply List.filter_congr
      intro e _
      have hn := slicesContains_map_congr _ _ (fun ctx => ctx.Name) hsel e.1
      simp only [namesAt, hn]
    have e2 : r1.Clusters = r2.Clusters := by
      rw [hcl1, hcl2, e1]
      apply List.filter_congr
      intro e _
      rw [slicesContains_map_congr _ _ (fun ctx => ctx.Context.Cluster) hsel e.1]
    have e3 : r1.AuthInfos = r2.AuthInfos := by
      rw [hus1, hus2, e1]
      apply List.filter_congr
      intro e _
      rw [slicesContains_map_congr _ _ (fun ctx => ctx.Context.AuthInfo) hsel e.1]
    have e : r2 = r1 := by
      cases r1
      cases r2
      simp only [Config.mk.injEq]
      exact ⟨e2.symm, e3.symm, e1.symm⟩
    exact ⟨r1, hrun1, by rw [hrun2, e]⟩

theorem names_first_selection :
    namesAt (k8sConfigContexts withUnreferenced.Contexts) [0, 2, 0] = ["a", "c", "a"] := by
  decide

theorem names_second_selection : namesAt withUnreferencedRotated [1, 0] = ["a", "c"] := by
  decide

theorem rotated_perm :
    withUnreferencedRotated.Perm (k8sConfigContexts withUnreferenced.Contexts) := by
  decide

/-- C15 at `withUnreferenced`: the indices `0, 2, 0` in the order `a, b, c` and the
indices `1, 0` in the order `c, a, b` both denote the names `a` and `c`. -/
theorem C15_depends_on_name_set_witness :
    (withUnreferenced.Contexts.WF ∧
      (k8sConfigContexts withUnreferenced.Contexts).Perm
        (k8sConfigContexts withUnreferenced.Contexts) ∧
      withUnreferencedRotated.Perm (k8sConfigContexts withUnreferenced.Contexts) ∧
      InRange withUnreferenced [0, 2, 0] ∧ InRange withUnreferenced [1, 0] ∧
      (∀ name, name ∈ namesAt (k8sConfigContexts withUnreferenced.Contexts) [0, 2, 0] ↔
        name ∈ namesAt withUnreferencedRotated [1, 0])) ∧
    (((k8sConfigContexts withUnreferenced.Contexts).map (fun x => x.Name) =
        withUnreferenced.Contexts.Keys ∧
      (∀ k ∈ withUnreferenced.Contexts.Keys,
        ((k8sConfigContexts withUnreferenced.Contexts).map (fun x => x.Name)).count k = 1) ∧
      (∀ x ∈ k8sConfigContexts withUnreferenced.Contexts,
        withUnreferenced.Contexts.lookup x.Name = some x.Context)) ∧
    prune withUnreferenced [0, 2, 0] true true =
      pruneFrom (k8sConfigContexts withUnreferenced.Contexts) withUnreferenced [0, 2, 0]
        true true ∧
    ∃ r, pruneFrom (k8sConfigContexts withUnreferenced.Contexts) withUnreferenced [0, 2, 0]
        true true = some r ∧
      pruneFrom withUnreferencedRotated withUnreferenced [1, 0] true true = some r) :=
  have hwf : withUnreferenced.Contexts.WF := by
    unfold GoMap.WF
    decide
  have hsame : ∀ name, name ∈ namesAt (k8sConfigContexts withUnreferenced.Contexts) [0, 2, 0] ↔
      name ∈ namesAt withUnreferencedRotated [1, 0] := by
    intro name
    rw [names_first_selection, names_second_selection]
    simp only [List.mem_cons, List.mem_singleton, List.not_mem_nil, or_false]
    tauto
  ⟨⟨hwf, List.Perm.refl _, rotated_perm, by decide, by decide, hsame⟩,
    C15_depends_on_name_set withUnreferenced (k8sConfigContexts withUnreferenced.Contexts)
      withUnreferencedRotated [0, 2, 0] [1, 0] true true hwf (List.Perm.refl _) rotated_perm
      (by decide) (by decide) hsame⟩

end KubectlConfigCleanup
